import Mathlib

/-!
Verification of the Sinsemilla hash-to-curve / commitment library
(`src/lib.rs` of `sinsemilla_trezor`) against its specification.

The elliptic-curve layer (`pasta_curves`) is an out-of-scope collaborator
per the spec (§1, §6); it is embedded as an abstract capability record
`CurveOps` over arbitrary point / base-field / scalar-field carriers.
The repository's `addition` and `constants` modules are referenced from
`src/lib.rs` but are not present under `src/`; their definitions are
modelled from the spec (§4.3, §6) and marked as such.
-/

namespace Sinsemilla

/-- Modelled from the spec: the `constants` module is not under `src/`.
§6: `K` is the fixed chunk width, 10 bits (the chunk type in
`Chunks::next` is hard-coded as `[bool; 10]` in `src/lib.rs`). -/
def K : Nat := 10

/-- Modelled from the spec: the `constants` module is not under `src/`.
§6: fixed ASCII personalization label for base points `Q`, matching the
reference construction; bytes of `"z.cash:SinsemillaQ"`. -/
def Q_PERSONALIZATION : List UInt8 :=
  [0x7a, 0x2e, 0x63, 0x61, 0x73, 0x68, 0x3a,
   0x53, 0x69, 0x6e, 0x73, 0x65, 0x6d, 0x69, 0x6c, 0x6c, 0x61, 0x51]

/-- Modelled from the spec: the `constants` module is not under `src/`.
§6: fixed ASCII personalization label for the lookup table `S`, matching
the reference construction; bytes of `"z.cash:SinsemillaS"`. -/
def S_PERSONALIZATION : List UInt8 :=
  [0x7a, 0x2e, 0x63, 0x61, 0x73, 0x68, 0x3a,
   0x53, 0x69, 0x6e, 0x73, 0x65, 0x6d, 0x69, 0x6c, 0x6c, 0x61, 0x53]

/-- Abstract interface of the collaborator curve library (`pasta_curves`),
out of scope per spec §1/§6: complete addition, negation, scalar
multiplication, affine-coordinate extraction (`none` exactly on the
identity point), the additive identity of the base field
(`pallas::Base::zero`), and a complete hash-to-curve
`(personalization bytes, message bytes) → point`. -/
structure CurveOps (P B Sc : Type) where
  zero : P
  cadd : P → P → P
  neg : P → P
  smul : P → Sc → P
  coordinates : P → Option (B × B)
  baseZero : B
  hashToCurve : List UInt8 → List UInt8 → P

/-- Modelled from the spec: the `addition` module (`IncompletePoint`) is
not under `src/`. §3/§4.3: a curve point tagged `Valid`, or the sticky
`Undefined` outcome of incomplete addition. -/
inductive IncompletePoint (P : Type) where
  | valid (p : P) : IncompletePoint P
  | undefined : IncompletePoint P
deriving DecidableEq

/-- Modelled from the spec: conversion of the fold result to an optional
point (`CtOption::from(IncompletePoint)` in the missing `addition`
module). §4.3: present only if the whole fold stayed `Valid`. -/
def IncompletePoint.toOption {P : Type} : IncompletePoint P → Option P
  | .valid p => some p
  | .undefined => none

/-- Modelled from the spec: the `addition` module's incomplete addition is
not under `src/`. §4.3: the result is `Undefined` if either input already
is, or when the two operands are equal, are mutual negations, or either is
the identity element; otherwise it is the (generic-case) sum, which on
generic inputs agrees with complete addition. -/
def iadd {P B Sc : Type} [DecidableEq P] (C : CurveOps P B Sc) :
    IncompletePoint P → IncompletePoint P → IncompletePoint P
  | .valid p, .valid q =>
      if p = q ∨ p = C.neg q ∨ q = C.neg p ∨ p = C.zero ∨ q = C.zero then
        .undefined
      else
        .valid (C.cadd p q)
  | _, _ => .undefined

/-- `extract_p` (`src/lib.rs:20`): affine x-coordinate of a point, with
the identity point (whose `coordinates()` are absent) mapped to
`pallas::Base::zero` by `unwrap_or_else`. -/
def extract_p {P B Sc : Type} (C : CurveOps P B Sc) (point : P) : B :=
  match C.coordinates point with
  | some c => c.1
  | none => C.baseZero

/-- `extract_p_bottom` (`src/lib.rs:28`): maps `extract_p` under the
optional-point channel. -/
def extract_p_bottom {P B Sc : Type} (C : CurveOps P B Sc)
    (point : Option P) : Option B :=
  point.map (extract_p C)

/-- `i2lebsp` (`src/lib.rs:38`): little-endian bit sequence of an integer,
bit `i` being `(int & (1 << i)) != 0`. The source asserts
`NUM_BITS <= 64`; it is only called with `NUM_BITS = K = 10`. -/
def i2lebsp (numBits : Nat) (int : Nat) : List Bool :=
  (List.range numBits).map (fun i => (int &&& (1 <<< i)) != 0)

/-- `lebs2ip_k` (`src/lib.rs:47`): little-endian bits to integer via
`enumerate` and a fold adding `1 << i` for each set bit. The source
asserts `bits.len() == K`; that precondition appears as a hypothesis in
the theorems below. -/
def lebs2ip_k (bits : List Bool) : Nat :=
  bits.enum.foldl (fun acc x => acc + if x.2 then 1 <<< x.1 else 0) 0

/-- `i2lebsp_k` (`src/lib.rs:56`): the `K`-bit little-endian pattern of an
integer. The source asserts `int < (1 << K)`; that precondition appears
as a hypothesis in the theorems below. -/
def i2lebsp_k (int : Nat) : List Bool :=
  i2lebsp K int

/-- `Chunks::next` (`src/lib.rs:77`): pulls one bit; if none the stream
ends, otherwise nine further bits are pulled with `unwrap_or(false)`,
yielding a 10-bit chunk right-padded with `false`. `chunks` is the list
of all chunks produced from a message. -/
def chunks : List Bool → List (List Bool)
  | [] => []
  | b0 :: b1 :: b2 :: b3 :: b4 :: b5 :: b6 :: b7 :: b8 :: b9 :: rest =>
      [b0, b1, b2, b3, b4, b5, b6, b7, b8, b9] :: chunks rest
  | l => [l ++ List.replicate (10 - l.length) false]

/-- `HashDomain` (`src/lib.rs:101`): owns the base point `Q`. -/
structure HashDomain (P : Type) where
  Q : P

/-- `usize::to_le_bytes` at `src/lib.rs:107`: the 8 little-endian bytes
of `j`. -/
def natToLeBytes8 (n : Nat) : List UInt8 :=
  (List.range 8).map (fun i => UInt8.ofNat (n >>> (8 * i)))

/-- `sinsemilla_s` (`src/lib.rs:106`) combined with the point
reconstruction at `src/lib.rs:131`: the source hashes `j.to_le_bytes()`
to a curve point, extracts its affine coordinates with `.unwrap()`, and
immediately rebuilds the point with `Affine::from_xy(..).unwrap()`; per
the collaborator contract (spec §4.2: the hash-to-curve call is complete
and never yields the identity) that round-trip is the identity map on the
hashed point, so the chunk point is embedded directly. No range check is
performed on `j` (the `TODO: j < 2^K check` comment at
`src/lib.rs:105`). -/
def sinsemilla_s {P B Sc : Type} (C : CurveOps P B Sc) (j : Nat) : P :=
  C.hashToCurve S_PERSONALIZATION (natToLeBytes8 j)

/-- `HashDomain::new` (`src/lib.rs:114`): `Q` is the complete
hash-to-curve of the domain label bytes under `Q_PERSONALIZATION`. -/
def HashDomain.new {P B Sc : Type} (C : CurveOps P B Sc)
    (domain : List UInt8) : HashDomain P :=
  { Q := C.hashToCurve Q_PERSONALIZATION domain }

/-- `HashDomain::hash_to_point_inner` (`src/lib.rs:128`): fold the chunk
stream starting from `Valid(Q)`, each chunk `c` contributing the step
`(acc + S_c) + acc` in incomplete addition. -/
def HashDomain.hash_to_point_inner {P B Sc : Type} [DecidableEq P]
    (C : CurveOps P B Sc) (D : HashDomain P) (msg : List Bool) :
    IncompletePoint P :=
  (chunks msg).foldl
    (fun acc chunk =>
      iadd C (iadd C acc (.valid (sinsemilla_s C (lebs2ip_k chunk)))) acc)
    (.valid D.Q)

/-- `HashDomain::hash_to_point` (`src/lib.rs:123`): the fold result as an
optional point (`.into()` on `IncompletePoint`). -/
def HashDomain.hash_to_point {P B Sc : Type} [DecidableEq P]
    (C : CurveOps P B Sc) (D : HashDomain P) (msg : List Bool) : Option P :=
  (HashDomain.hash_to_point_inner C D msg).toOption

/-- `HashDomain::hash` (`src/lib.rs:143`): x-coordinate extraction of
`hash_to_point`. -/
def HashDomain.hash {P B Sc : Type} [DecidableEq P] (C : CurveOps P B Sc)
    (D : HashDomain P) (msg : List Bool) : Option B :=
  extract_p_bottom C (HashDomain.hash_to_point C D msg)

/-- `CommitDomain` (`src/lib.rs:159`): inner `HashDomain` plus blinding
generator `R`. -/
structure CommitDomain (P : Type) where
  M : HashDomain P
  R : P

/-- The zip-write loops of `no_alloc_concat` (`src/lib.rs:222` and
`src/lib.rs:225`): overwrite `buffer[start + k]` with `src[k]` for
`k < min (buffer.length - start) src.length`, leaving the rest of the
buffer unchanged. -/
def zipWrite (buffer : List UInt8) (start : Nat) (src : List UInt8) :
    List UInt8 :=
  buffer.take start ++ src.take (buffer.length - start) ++
    buffer.drop (start + src.length)

/-- `no_alloc_concat` (`src/lib.rs:214`): asserts
`first.len() + second.len() <= 64` (modelled as `none` on violation,
matching the fail-fast panic), writes `first` at offset 0 of the
64-byte zero buffer, writes `second` at offset `second.len()` — exactly
as the source does — and returns the first `len` bytes. (The final
`from_utf8(..).unwrap()` re-validation is elided: labels are handled at
the byte level throughout.) -/
def no_alloc_concat (first second : List UInt8) : Option (List UInt8) :=
  let len := first.length + second.length
  if len ≤ 64 then
    let buffer := List.replicate 64 (0 : UInt8)
    let buffer := zipWrite buffer 0 first
    let buffer := zipWrite buffer second.length second
    some (buffer.take len)
  else
    none

/-- `CommitDomain::new` (`src/lib.rs:167`): concatenates the label with
the literal suffixes `"-M"` (bytes `[0x2d, 0x4d]`) and `"-r"` (bytes
`[0x2d, 0x72]`) via `no_alloc_concat` into 64-byte buffers, then builds
the inner `HashDomain` from the first result and hashes the second to
curve (as personalization, with empty message) to obtain `R`. A
concatenation failure is the construction-time panic, modelled as
`none`. -/
def CommitDomain.new {P B Sc : Type} (C : CurveOps P B Sc)
    (domain : List UInt8) : Option (CommitDomain P) := do
  let mPref ← no_alloc_concat domain [0x2d, 0x4d]
  let rPref ← no_alloc_concat domain [0x2d, 0x72]
  some { M := HashDomain.new C mPref, R := C.hashToCurve rPref [] }

/-- `CommitDomain::commit` (`src/lib.rs:185`): the optional hash point
with `p + R * r` mapped over it — complete addition of the blinding term
`R * r`. -/
def CommitDomain.commit {P B Sc : Type} [DecidableEq P]
    (C : CurveOps P B Sc) (cd : CommitDomain P) (msg : List Bool)
    (r : Sc) : Option P :=
  (HashDomain.hash_to_point_inner C cd.M msg).toOption.map
    (fun p => C.cadd p (C.smul cd.R r))

/-- `CommitDomain::short_commit` (`src/lib.rs:198`): x-coordinate
extraction of `commit`. -/
def CommitDomain.short_commit {P B Sc : Type} [DecidableEq P]
    (C : CurveOps P B Sc) (cd : CommitDomain P) (msg : List Bool)
    (r : Sc) : Option B :=
  extract_p_bottom C (CommitDomain.commit C cd msg r)

/-! ### A concrete instantiation of the collaborator interface

Used to evaluate the embedded operations on explicit inputs. Its
operations need not satisfy curve laws; theorems quantified over
`CurveOps` hold for it, and it realises the data flows the source
exhibits (in particular a `Valid` fold whose value is the designated
identity element). -/

/-- A small concrete `CurveOps` instantiation over `Nat` carriers:
`0` is the identity, `coordinates` fails exactly on it, the base-field
zero is `99`, and hash-to-curve sends the `S` personalization to `2` and
everything else to `1`. -/
def toyCurve : CurveOps Nat Nat Nat :=
  { zero := 0
    cadd := fun p q => if p = 3 ∧ q = 1 then 0 else p + q
    neg := fun p => p + 10
    smul := fun p r => p * r
    coordinates := fun p => if p = 0 then none else some (p, p)
    baseZero := 99
    hashToCurve := fun pers _ => if pers = S_PERSONALIZATION then 2 else 1 }

/-- The bytes of the label `"test"` (the label of the spec's concrete
scenario, §8). -/
def testLabel : List UInt8 := [0x74, 0x65, 0x73, 0x74]

/-- The hash domain built from `toyCurve` and the `"test"` label; its
base point is `toyCurve.hashToCurve Q_PERSONALIZATION testLabel = 1`. -/
def toyDomain : HashDomain Nat := HashDomain.new toyCurve testLabel

/-- A concrete commitment domain over `toyCurve`. -/
def toyCd : CommitDomain Nat := { M := { Q := 1 }, R := 7 }

/-! ### Structural lemmas about the chunker -/

/-- The catch-all arm of `chunks`: a nonempty message of fewer than 10
bits yields the single chunk right-padded with `false`. -/
lemma chunks_small_eq (l : List Bool) (h1 : l ≠ []) (h2 : l.length ≤ 9) :
    chunks l = [l ++ List.replicate (10 - l.length) false] := by
  rcases l with _ | ⟨b0, _ | ⟨b1, _ | ⟨b2, _ | ⟨b3, _ | ⟨b4, _ | ⟨b5, _ |
    ⟨b6, _ | ⟨b7, _ | ⟨b8, _ | ⟨b9, rest⟩⟩⟩⟩⟩⟩⟩⟩⟩⟩
  · exact absurd rfl h1
  · rfl
  · rfl
  · rfl
  · rfl
  · rfl
  · rfl
  · rfl
  · rfl
  · rfl
  · simp at h2

/-- The full-chunk arm of `chunks` in `take`/`drop` form. -/
lemma chunks_big_eq (l : List Bool) (h : 10 ≤ l.length) :
    chunks l = l.take 10 :: chunks (l.drop 10) := by
  rcases l with _ | ⟨b0, _ | ⟨b1, _ | ⟨b2, _ | ⟨b3, _ | ⟨b4, _ | ⟨b5, _ |
    ⟨b6, _ | ⟨b7, _ | ⟨b8, _ | ⟨b9, rest⟩⟩⟩⟩⟩⟩⟩⟩⟩⟩
  · simp at h
  · simp at h
  · simp at h
  · simp at h
  · simp at h
  · simp at h
  · simp at h
  · simp at h
  · simp at h
  · simp at h
  · rfl

/-- A message of exactly 10 bits is its own single chunk. -/
lemma chunks_len10 (l : List Bool) (h : l.length = 10) : chunks l = [l] := by
  rw [chunks_big_eq l (le_of_eq h.symm), List.take_of_length_le (le_of_eq h),
    List.drop_of_length_le (le_of_eq h)]
  rfl

/-- Chunking distributes over append at a chunk boundary. -/
lemma chunks_append (l t : List Bool) (hm : l.length % 10 = 0) :
    chunks (l ++ t) = chunks l ++ chunks t := by
  have H : ∀ (n : Nat) (l t : List Bool), l.length ≤ n →
      l.length % 10 = 0 → chunks (l ++ t) = chunks l ++ chunks t := by
    intro n
    induction n with
    | zero =>
        intro l t hl _
        have hnil : l = [] := List.length_eq_zero.mp (Nat.le_zero.mp hl)
        subst hnil
        simp [chunks]
    | succ n ih =>
        intro l t hl hm
        rcases eq_or_ne l [] with rfl | hne
        · simp [chunks]
        · have hne' : l.length ≠ 0 := fun h => hne (List.length_eq_zero.mp h)
          have hlen : 10 ≤ l.length := by omega
          rw [chunks_big_eq l hlen,
            chunks_big_eq (l ++ t) (by simp; omega),
            List.take_append_of_le_length hlen,
            List.drop_append_of_le_length hlen,
            ih (l.drop 10) t (by simp; omega) (by simp; omega)]
          simp
  exact H l.length l t le_rfl hm

/-- Right-padding a ragged message with `false` to the next multiple of
10 bits does not change its chunks. -/
lemma chunks_pad (l : List Bool) (h : l.length % 10 ≠ 0) :
    chunks (l ++ List.replicate (10 - l.length % 10) false) = chunks l := by
  have H : ∀ (n : Nat) (l : List Bool), l.length ≤ n → l.length % 10 ≠ 0 →
      chunks (l ++ List.replicate (10 - l.length % 10) false) = chunks l := by
    intro n
    induction n with
    | zero =>
        intro l hl hm
        have hnil : l = [] := List.length_eq_zero.mp (Nat.le_zero.mp hl)
        subst hnil
        simp at hm
    | succ n ih =>
        intro l hl hm
        rcases eq_or_ne l [] with rfl | hne
        · simp at hm
        · have hne' : l.length ≠ 0 := fun h => hne (List.length_eq_zero.mp h)
          by_cases h9 : l.length ≤ 9
          · have hmod : l.length % 10 = l.length := Nat.mod_eq_of_lt (by omega)
            rw [hmod, chunks_len10 _ (by simp; omega), chunks_small_eq l hne h9]
          · have hlen : 10 ≤ l.length := by omega
            have hdmod : (l.drop 10).length % 10 = l.length % 10 := by
              simp; omega
            rw [chunks_big_eq l hlen,
              chunks_big_eq (l ++ List.replicate (10 - l.length % 10) false)
                (by simp; omega),
              List.take_append_of_le_length hlen,
              List.drop_append_of_le_length hlen]
            have hrw : l.length % 10 = (l.drop 10).length % 10 := hdmod.symm
            rw [hrw, ih (l.drop 10) (by simp; omega) (by rw [hdmod]; exact hm)]
  exact H l.length l le_rfl h

/-- The number of chunks of a message: one chunk per started group of 10
bits, with no upper bound. -/
lemma chunks_length (l : List Bool) :
    (chunks l).length = (l.length + 9) / 10 := by
  have H : ∀ (n : Nat) (l : List Bool), l.length ≤ n →
      (chunks l).length = (l.length + 9) / 10 := by
    intro n
    induction n with
    | zero =>
        intro l hl
        have hnil : l = [] := List.length_eq_zero.mp (Nat.le_zero.mp hl)
        subst hnil
        simp [chunks]
    | succ n ih =>
        intro l hl
        rcases eq_or_ne l [] with rfl | hne
        · simp [chunks]
        · have hne' : l.length ≠ 0 := fun h => hne (List.length_eq_zero.mp h)
          by_cases h9 : l.length ≤ 9
          · rw [chunks_small_eq l hne h9]
            simp
            omega
          · rw [chunks_big_eq l (by omega)]
            simp only [List.length_cons, ih (l.drop 10) (by simp; omega)]
            simp
            omega
  exact H l.length l le_rfl

/-- Every chunk the chunker produces has exactly 10 bits. -/
lemma chunks_mem_length (l c : List Bool) (hc : c ∈ chunks l) :
    c.length = 10 := by
  have H : ∀ (n : Nat) (l c : List Bool), l.length ≤ n → c ∈ chunks l →
      c.length = 10 := by
    intro n
    induction n with
    | zero =>
        intro l c hl hc
        have hnil : l = [] := List.length_eq_zero.mp (Nat.le_zero.mp hl)
        subst hnil
        simp [chunks] at hc
    | succ n ih =>
        intro l c hl hc
        rcases eq_or_ne l [] with rfl | hne
        · simp [chunks] at hc
        · have hne' : l.length ≠ 0 := fun h => hne (List.length_eq_zero.mp h)
          by_cases h9 : l.length ≤ 9
          · rw [chunks_small_eq l hne h9] at hc
            simp at hc
            subst hc
            simp
            omega
          · rw [chunks_big_eq l (by omega)] at hc
            rcases List.mem_cons.mp hc with rfl | htail
            · simp
              omega
            · exact ih (l.drop 10) c (by simp; omega) htail
  exact H l.length l c le_rfl hc

/-! ### Little-endian bit/integer conversion lemmas -/

/-- Little-endian value of a bit list in head-recursive form; proved
equal to the source's `enumerate`-fold `lebs2ip_k` below. -/
def lebsValue : List Bool → Nat
  | [] => 0
  | b :: rest => (if b then 1 else 0) + 2 * lebsValue rest

/-- The indexed fold underlying `lebs2ip_k`, over `enumFrom k`, adds
`2 ^ k` times the value of the remaining bits to the accumulator. -/
lemma enumFrom_foldl (l : List Bool) : ∀ (k acc : Nat),
    (List.enumFrom k l).foldl
        (fun a p => a + if p.2 then 1 <<< p.1 else 0) acc
      = acc + 2 ^ k * lebsValue l := by
  induction l with
  | nil => intro k acc; simp [lebsValue]
  | cons b rest ih =>
      intro k acc
      simp only [List.enumFrom, List.foldl_cons]
      rw [ih (k + 1)]
      cases b <;> simp [lebsValue, Nat.one_shiftLeft, pow_succ] <;> ring

/-- The source's `lebs2ip_k` computes `lebsValue`. -/
lemma lebs2ip_eq (l : List Bool) : lebs2ip_k l = lebsValue l := by
  have h := enumFrom_foldl l 0 0
  simp only [pow_zero, one_mul, zero_add] at h
  exact h

/-- The value of an `n`-bit list is below `2 ^ n`. -/
lemma lebsValue_lt (l : List Bool) : lebsValue l < 2 ^ l.length := by
  induction l with
  | nil => simp [lebsValue]
  | cons b rest ih =>
      cases b <;> simp [lebsValue, pow_succ] <;> omega

/-- The bit test `(m &&& (1 <<< i)) != 0` used by `i2lebsp` is
`Nat.testBit`. -/
lemma bitAt_eq_testBit (m i : Nat) :
    ((m &&& (1 <<< i)) != 0) = m.testBit i := by
  rw [Nat.one_shiftLeft, Nat.and_two_pow]
  cases h : m.testBit i
  · simp
  · simp [(Nat.two_pow_pos i).ne']

/-- `i2lebsp` lists the bits of its argument. -/
lemma i2lebsp_eq (n m : Nat) :
    i2lebsp n m = (List.range n).map (m.testBit ·) := by
  simp only [i2lebsp, bitAt_eq_testBit]

/-- Base-2 digit decomposition of a remainder. -/
lemma mod_two_mul (m t : Nat) (ht : 0 < t) :
    m % (2 * t) = m % 2 + 2 * (m / 2 % t) := by
  have h1 : m = 2 * (m / 2) + m % 2 := (Nat.div_add_mod m 2).symm
  have h2 : 2 * (m / 2) % (2 * t) = 2 * (m / 2 % t) :=
    Nat.mul_mod_mul_left 2 (m / 2) t
  have h3 : m % 2 % (2 * t) = m % 2 :=
    Nat.mod_eq_of_lt (by omega)
  have h4 : m / 2 % t < t := Nat.mod_lt _ ht
  calc m % (2 * t) = (2 * (m / 2) + m % 2) % (2 * t) := by rw [← h1]
    _ = (2 * (m / 2) % (2 * t) + m % 2 % (2 * t)) % (2 * t) := by
          rw [Nat.add_mod]
    _ = (2 * (m / 2 % t) + m % 2) % (2 * t) := by rw [h2, h3]
    _ = 2 * (m / 2 % t) + m % 2 := Nat.mod_eq_of_lt (by omega)
    _ = m % 2 + 2 * (m / 2 % t) := by ring

/-- Reading back the `k`-bit pattern of `m` yields `m % 2 ^ k`. -/
lemma lebsValue_i2lebsp (k : Nat) : ∀ (m : Nat),
    lebsValue (i2lebsp k m) = m % 2 ^ k := by
  induction k with
  | zero => intro m; simp [i2lebsp, lebsValue, Nat.mod_one]
  | succ k ih =>
      intro m
      rw [i2lebsp_eq, List.range_succ_eq_map]
      simp only [List.map_cons, List.map_map]
      have hcomp : ((fun i => m.testBit i) ∘ Nat.succ)
          = fun i => (m / 2).testBit i := by
        funext i
        simp [Function.comp, Nat.testBit_succ]
      rw [hcomp, ← i2lebsp_eq]
      have hmod : m % 2 ^ (k + 1) = m % 2 + 2 * (m / 2 % 2 ^ k) := by
        have := mod_two_mul m (2 ^ k) (Nat.two_pow_pos k)
        rw [pow_succ]
        rw [mul_comm (2 ^ k) 2]
        exact this
      rw [hmod]
      simp only [lebsValue, ih (m / 2), Nat.testBit_zero]
      rcases Nat.mod_two_eq_zero_or_one m with h | h <;> simp [h]

/-- Listing the bits of the value of a bit list restores the list. -/
lemma i2lebsp_lebsValue : ∀ (b : List Bool),
    i2lebsp b.length (lebsValue b) = b := by
  intro b
  induction b with
  | nil => simp [i2lebsp]
  | cons x rest ih =>
      rw [i2lebsp_eq, List.length_cons, List.range_succ_eq_map]
      simp only [List.map_cons, List.map_map]
      have hval : lebsValue (x :: rest)
          = (if x then 1 else 0) + 2 * lebsValue rest := rfl
      have hdiv : lebsValue (x :: rest) / 2 = lebsValue rest := by
        rw [hval]; cases x <;> simp [Nat.add_mul_div_left]
      have hcomp : ((fun i => (lebsValue (x :: rest)).testBit i) ∘ Nat.succ)
          = fun i => (lebsValue (x :: rest) / 2).testBit i := by
        funext i
        simp [Function.comp, Nat.testBit_succ]
      have hhead : (lebsValue (x :: rest)).testBit 0 = x := by
        rw [Nat.testBit_zero, hval]
        cases x <;> simp
      rw [hcomp, hdiv, ← i2lebsp_eq, ih, hhead]

/-! ### Claim theorems -/

/-- C1: the claim says `no_alloc_concat(first, second, buf)` returns
exactly the bytes of `first` followed by the bytes of `second` whenever
their combined length is at most 64, and that `CommitDomain::new` builds
its labels that way. The code instead writes `second` at offset
`second.len()` rather than `first.len()`: on `first = "test"`,
`second = "-M"` it produces the bytes of `"te-M\x00\x00"`, not of
`"test-M"`. This theorem evaluates the embedded `no_alloc_concat` at that
failing input and shows the result differs from true concatenation. -/
theorem c1_concat_bug :
    no_alloc_concat testLabel [0x2d, 0x4d]
        = some [0x74, 0x65, 0x2d, 0x4d, 0x00, 0x00]
      ∧ no_alloc_concat testLabel [0x2d, 0x4d]
        ≠ some (testLabel ++ [0x2d, 0x4d]) := by
  decide

/-- C2 (amended): when the incomplete-addition fold stays `Valid` and the
resulting point is the identity element (the point whose affine
`coordinates` are absent), `HashDomain::hash` returns a PRESENT field
element equal to `Base::zero` — `extract_p` maps the identity to zero via
`unwrap_or_else`; it does not surface absence. -/
theorem c2_identity_hash_present {P B Sc : Type} [DecidableEq P]
    (C : CurveOps P B Sc) (D : HashDomain P) (msg : List Bool) (p : P)
    (hfold : HashDomain.hash_to_point_inner C D msg = .valid p)
    (hid : C.coordinates p = none) :
    HashDomain.hash C D msg = some C.baseZero := by
  unfold HashDomain.hash HashDomain.hash_to_point extract_p_bottom
  rw [hfold]
  simp [IncompletePoint.toOption, extract_p, hid]

/-- C2 counterexample: a concrete message over a concrete instantiation
of the collaborator interface whose fold stays `Valid` and produces the
identity element, yet `hash` returns a present value (`some 99`, the
instantiation's base-field zero) — not the absent value the claim
requires. -/
theorem c2_counterexample :
    HashDomain.hash_to_point_inner toyCurve toyDomain
        (List.replicate 10 false) = .valid toyCurve.zero
      ∧ HashDomain.hash toyCurve toyDomain (List.replicate 10 false)
        ≠ none := by
  decide

/-- C2 witness: the amended theorem applied at the concrete input. -/
theorem c2_witness :
    HashDomain.hash toyCurve toyDomain (List.replicate 10 false)
      = some toyCurve.baseZero :=
  c2_identity_hash_present toyCurve toyDomain (List.replicate 10 false) 0
    (by decide) (by decide)

/-- C3: extending a chunk-aligned message by one further `K`-bit chunk
`c` updates the fold result by exactly
`acc' = incomplete_add(incomplete_add(acc, S_c), acc)`, with the original
accumulator appearing in both additions; and the fold is seeded at the
domain's base point `Q` flagged `Valid`. -/
theorem c3_fold_recurrence {P B Sc : Type} [DecidableEq P]
    (C : CurveOps P B Sc) (D : HashDomain P) (msg c : List Bool)
    (hmsg : msg.length % K = 0) (hc : c.length = K) :
    HashDomain.hash_to_point_inner C D (msg ++ c)
        = iadd C
            (iadd C (HashDomain.hash_to_point_inner C D msg)
              (.valid (sinsemilla_s C (lebs2ip_k c))))
            (HashDomain.hash_to_point_inner C D msg)
      ∧ HashDomain.hash_to_point_inner C D [] = .valid D.Q := by
  constructor
  · unfold HashDomain.hash_to_point_inner
    rw [chunks_append msg c (by simpa [K] using hmsg),
      chunks_len10 c (by simpa [K] using hc), List.foldl_append]
    rfl
  · rfl

/-- C3 witness: the recurrence at a concrete chunk over the concrete
instantiation. -/
theorem c3_witness :
    HashDomain.hash_to_point_inner toyCurve toyDomain
        (([] : List Bool) ++ List.replicate 10 true)
      = iadd toyCurve
          (iadd toyCurve (HashDomain.hash_to_point_inner toyCurve toyDomain [])
            (.valid (sinsemilla_s toyCurve
              (lebs2ip_k (List.replicate 10 true)))))
          (HashDomain.hash_to_point_inner toyCurve toyDomain []) :=
  (c3_fold_recurrence toyCurve toyDomain [] (List.replicate 10 true)
    (by decide) (by decide)).1

/-- C4: the claim (and the `# Panics` doc comment on `HashDomain::hash`,
`src/lib.rs:140`) says messages longer than `C * K` bits fail fast. The
code has no length check: `Chunks` keeps producing chunks past the
protocol bound `C = 253`, so a message of `253 * K + 1` bits yields
`254` chunks, all of which `hash_to_point` folds, and a result is
returned instead of an abort. -/
theorem c4_no_length_check :
    (chunks (List.replicate (253 * K + 1) false)).length = 253 + 1 := by
  rw [chunks_length, List.length_replicate]
  simp [K]

/-- C5: hashing the empty message applies zero fold steps and returns
the domain's base point `Q`, present. -/
theorem c5_empty_message {P B Sc : Type} [DecidableEq P]
    (C : CurveOps P B Sc) (D : HashDomain P) :
    HashDomain.hash_to_point C D [] = some D.Q :=
  rfl

/-- C6: hashing a message whose bit length is not a multiple of `K`
equals hashing the same message explicitly right-padded with `false` to
the next multiple of `K`. -/
theorem c6_padding_equiv {P B Sc : Type} [DecidableEq P]
    (C : CurveOps P B Sc) (D : HashDomain P) (msg : List Bool)
    (h : msg.length % K ≠ 0) :
    HashDomain.hash_to_point C D msg
      = HashDomain.hash_to_point C D
          (msg ++ List.replicate (K - msg.length % K) false) := by
  unfold HashDomain.hash_to_point HashDomain.hash_to_point_inner
  simp only [K]
  rw [chunks_pad msg (by simpa [K] using h)]

/-- C6 witness: padding equivalence at a concrete one-bit message. -/
theorem c6_witness :
    HashDomain.hash_to_point toyCurve toyDomain [true]
      = HashDomain.hash_to_point toyCurve toyDomain
          ([true] ++ List.replicate (K - [true].length % K) false) :=
  c6_padding_equiv toyCurve toyDomain [true] (by decide)

/-- C7: the fixed-width conversions round-trip in both directions: for
every `n < 2 ^ K`, `lebs2ip_k (i2lebsp_k n) = n`, and for every `K`-bit
pattern `b`, `i2lebsp_k (lebs2ip_k b) = b` (the hypotheses are the
source's `assert!`s). -/
theorem c7_roundtrip :
    (∀ n : Nat, n < 2 ^ K → lebs2ip_k (i2lebsp_k n) = n)
      ∧ (∀ b : List Bool, b.length = K → i2lebsp_k (lebs2ip_k b) = b) := by
  constructor
  · intro n hn
    rw [lebs2ip_eq, i2lebsp_k, lebsValue_i2lebsp]
    exact Nat.mod_eq_of_lt hn
  · intro b hb
    rw [lebs2ip_eq, i2lebsp_k, ← hb]
    exact i2lebsp_lebsValue b

/-- C7 witness: both round-trip directions at concrete values. -/
theorem c7_witness :
    lebs2ip_k (i2lebsp_k 5) = 5
      ∧ i2lebsp_k (lebs2ip_k
            [true, false, true, true, false, false, true, false, false, true])
        = [true, false, true, true, false, false, true, false, false, true] :=
  ⟨c7_roundtrip.1 5 (by decide), c7_roundtrip.2 _ (by decide)⟩

/-- C8: whenever the byte length of `"<label>-M"` (equivalently of
`"<label>-r"`, both suffixes being 2 bytes) exceeds the 64-byte buffer,
`CommitDomain::new` fails fast at construction (the `assert!` inside
`no_alloc_concat`, modelled as `none`); no `CommitDomain` value exists on
which a later `commit` could be called. -/
theorem c8_new_fails_fast {P B Sc : Type} (C : CurveOps P B Sc)
    (label : List UInt8) (h : 64 < label.length + 2) :
    CommitDomain.new C label = none := by
  have h2 : ¬ (label.length + ([0x2d, 0x4d] : List UInt8).length ≤ 64) := by
    simp
    omega
  simp [CommitDomain.new, no_alloc_concat, h2]
  omega

/-- C8 witness: a 63-byte label (65 bytes once suffixed) is rejected at
construction. -/
theorem c8_witness :
    CommitDomain.new toyCurve (List.replicate 63 (0 : UInt8)) = none :=
  c8_new_fails_fast toyCurve (List.replicate 63 (0 : UInt8)) (by decide)

/-- C9: `commit` is present exactly when the inner `hash_to_point` is
present; when present it is the complete addition of the inner hash
point and the scalar multiple `R * r`; and `short_commit` is the
x-coordinate extraction of `commit` with identical presence. -/
theorem c9_commit {P B Sc : Type} [DecidableEq P] (C : CurveOps P B Sc)
    (cd : CommitDomain P) (msg : List Bool) (r : Sc) :
    ((CommitDomain.commit C cd msg r).isSome
        = (HashDomain.hash_to_point C cd.M msg).isSome)
      ∧ (∀ p : P, HashDomain.hash_to_point C cd.M msg = some p →
          CommitDomain.commit C cd msg r
            = some (C.cadd p (C.smul cd.R r)))
      ∧ CommitDomain.short_commit C cd msg r
          = (CommitDomain.commit C cd msg r).map (extract_p C) := by
  cases h : HashDomain.hash_to_point_inner C cd.M msg with
  | valid p =>
      refine ⟨?_, ?_, ?_⟩ <;>
        simp [CommitDomain.commit, CommitDomain.short_commit,
          HashDomain.hash_to_point, extract_p_bottom, h,
          IncompletePoint.toOption]
  | undefined =>
      refine ⟨?_, ?_, ?_⟩ <;>
        simp [CommitDomain.commit, CommitDomain.short_commit,
          HashDomain.hash_to_point, extract_p_bottom, h,
          IncompletePoint.toOption]

/-- C9 witness: the present-commit equation at a concrete domain,
message and blinding scalar. -/
theorem c9_witness :
    CommitDomain.commit toyCurve toyCd [] 3
      = some (toyCurve.cadd 1 (toyCurve.smul toyCd.R 3)) :=
  (c9_commit toyCurve toyCd [] 3).2.1 1 (by decide)

/-- C10: every chunk the chunker yields has exactly `K` bits, so the
table index `lebs2ip_k chunk` computed during `hash_to_point` is strictly
below `2 ^ K`; `sinsemilla_s` is therefore never invoked out of range
even though it performs no range check itself. -/
theorem c10_chunk_range (msg chunk : List Bool)
    (hc : chunk ∈ chunks msg) :
    chunk.length = K ∧ lebs2ip_k chunk < 2 ^ K := by
  have hlen : chunk.length = 10 := chunks_mem_length msg chunk hc
  have hlenK : chunk.length = K := hlen
  refine ⟨hlenK, ?_⟩
  rw [lebs2ip_eq, ← hlenK]
  exact lebsValue_lt chunk

/-- C10 witness: the bound at a concrete chunk of a concrete message. -/
theorem c10_witness :
    (List.replicate 10 true).length = K
      ∧ lebs2ip_k (List.replicate 10 true) < 2 ^ K :=
  c10_chunk_range (List.replicate 10 true) (List.replicate 10 true)
    (by decide)

end Sinsemilla
